import Mathlib

/-!
Verification development for the OLSR wire-format codec (packet header,
message header, four body variants, compact time encoding) of this ns-3
based repository, and for the RV battery model
(`src/energy/model/rv-battery-model.cc`).

The codec implementation file (`olsr-header.cc/h`) is not part of the
source tree here — only its unit-test suite
(`src/src/olsr/test/olsr-header-test-suite.cc`) is — so the codec
definitions below are modelled from the specification (spec.md §3, §4,
§6), each marked `Modelled from the spec:` in its doc comment.  The
battery-model definitions are translated directly from
`rv-battery-model.cc`.
-/

namespace Olsr

/-- Modelled from the spec: the decode-failure taxonomy of §7 for the codec
(whose implementation file `olsr-header.cc` is missing from the tree):
`MalformedLength` (declared size inconsistent with the fixed-header minimum
or the payload), `BufferUnderrun` (cursor exhausted before declared bytes
consumed). -/
inductive DecodeError where
  | malformedLength
  | bufferUnderrun
deriving DecidableEq

/-- Decidable equality of decode results, so that concrete decoder runs
can be checked by `decide`. -/
instance {ε α : Type} [DecidableEq ε] [DecidableEq α] :
    DecidableEq (Except ε α) := fun x y =>
  match x, y with
  | .ok a, .ok b =>
    if h : a = b then .isTrue (by rw [h])
    else .isFalse (fun hc => h (Except.ok.inj hc))
  | .ok _, .error _ => .isFalse (fun hc => Except.noConfusion hc)
  | .error _, .ok _ => .isFalse (fun hc => Except.noConfusion hc)
  | .error e, .error f =>
    if h : e = f then .isTrue (by rw [h])
    else .isFalse (fun hc => h (Except.error.inj hc))

/-- Modelled from the spec: `writeU8` of the byte-cursor contract (§6);
a byte written through a `uint8_t` is reduced mod 256. -/
def writeU8 (v : ℕ) : List ℕ := [v % 256]

/-- Modelled from the spec: `writeU16` in network byte order (§6). -/
def writeU16 (v : ℕ) : List ℕ := writeU8 (v / 256) ++ writeU8 (v % 256)

/-- Modelled from the spec: `writeU32` in network byte order (§6). -/
def writeU32 (v : ℕ) : List ℕ := writeU16 (v / 65536) ++ writeU16 (v % 65536)

/-- Modelled from the spec: `readU8` of the byte-cursor contract (§6); an
exhausted cursor is a `BufferUnderrun` (§7). -/
def readU8 : List ℕ → Except DecodeError (ℕ × List ℕ)
  | [] => .error .bufferUnderrun
  | b :: rest => .ok (b, rest)

/-- Modelled from the spec: `readU16` in network byte order (§6). -/
def readU16 (bs : List ℕ) : Except DecodeError (ℕ × List ℕ) := do
  let (hi, bs) ← readU8 bs
  let (lo, bs) ← readU8 bs
  .ok (hi * 256 + lo, bs)

/-- Modelled from the spec: `readU32` in network byte order (§6). -/
def readU32 (bs : List ℕ) : Except DecodeError (ℕ × List ℕ) := do
  let (hi, bs) ← readU16 bs
  let (lo, bs) ← readU16 bs
  .ok (hi * 65536 + lo, bs)

/-- Modelled from the spec: `EmfToSeconds` (§4.1), the compact-time decoder
(missing with `olsr-header.cc`): the byte's high nibble is the exponent,
the low nibble the mantissa, and the value is
`2^exponent * 0.0625 * (16 + mantissa)` seconds. -/
def EmfToSeconds (b : ℕ) : ℚ :=
  2 ^ (b / 16) * (1 / 16 : ℚ) * (16 + ((b % 16 : ℕ) : ℚ))

/-- Modelled from the spec: the rounded mantissa the encoder computes for a
candidate exponent `b` (§4.1): solving `t = 2^b * 0.0625 * (16 + a)`
for `a` and rounding to the nearest integer. -/
def emfMantissa (t : ℚ) (b : ℕ) : ℤ :=
  round (16 * t / 2 ^ b - 16)

/-- Modelled from the spec: `SecondsToEmf` (§4.1), the compact-time encoder
(missing with `olsr-header.cc`): choose the minimal exponent such that the
rounded mantissa fits in 4 bits, clamp the mantissa into `[0,15]`, and if
the exponent would exceed the 4-bit range saturate to the maximum
representable byte. -/
def SecondsToEmf (t : ℚ) : ℕ :=
  match (List.range 16).find? (fun b => decide (emfMantissa t b ≤ 15)) with
  | some b => 16 * b + (max 0 (min 15 (emfMantissa t b))).toNat
  | none => 255

/-- Modelled from the spec: the `MID` message type tag (§6). -/
def MID_MESSAGE : ℕ := 1

/-- Modelled from the spec: the `HELLO` message type tag (§6). -/
def HELLO_MESSAGE : ℕ := 2

/-- Modelled from the spec: the `TC` message type tag (§6). -/
def TC_MESSAGE : ℕ := 3

/-- Modelled from the spec: the `HNA` message type tag (§6). -/
def HNA_MESSAGE : ℕ := 4

/-- Modelled from the spec: the MID body variant (`MessageHeader::Mid`,
missing with `olsr-header.h`): an ordered sequence of 4-byte interface
addresses, each represented by its `u32` value (§3). -/
structure Mid where
  interfaceAddresses : List ℕ
deriving DecidableEq

/-- Modelled from the spec: a Hello link record
(`MessageHeader::Hello::LinkMessage`, missing with `olsr-header.h`):
a link code and an ordered sequence of neighbor interface addresses (§3). -/
structure LinkMessage where
  linkCode : ℕ
  neighborInterfaceAddresses : List ℕ
deriving DecidableEq

/-- Modelled from the spec: the HELLO body variant (`MessageHeader::Hello`,
missing with `olsr-header.h`): hello interval (an in-memory duration in
seconds, compact-encoded on the wire), willingness, and an ordered sequence
of link records (§3). -/
structure Hello where
  hTime : ℚ
  willingness : ℕ
  linkMessages : List LinkMessage
deriving DecidableEq

/-- Modelled from the spec: the TC body variant (`MessageHeader::Tc`,
missing with `olsr-header.h`): the advertised neighbor sequence number and
an ordered sequence of advertised neighbor addresses (§3). -/
structure Tc where
  ansn : ℕ
  neighborAddresses : List ℕ
deriving DecidableEq

/-- Modelled from the spec: one HNA association (`Hna::Association`,
missing with `olsr-header.h`): a network address and mask pair (§3). -/
structure Association where
  address : ℕ
  mask : ℕ
deriving DecidableEq

/-- Modelled from the spec: the HNA body variant (`MessageHeader::Hna`,
missing with `olsr-header.h`): an ordered sequence of address/mask
associations (§3). -/
structure Hna where
  associations : List Association
deriving DecidableEq

/-- Modelled from the spec: the tagged union of message body variants (§3),
with the opaque raw-bytes variant `other` used for unrecognized type tags
(§4.3 forward-compatibility policy). -/
inductive Body where
  | mid : Mid → Body
  | hello : Hello → Body
  | tc : Tc → Body
  | hna : Hna → Body
  | other : List ℕ → Body
deriving DecidableEq

/-- Modelled from the spec: the message envelope (`MessageHeader`, missing
with `olsr-header.h`): type tag, validity duration (compact-encoded on the
wire), originator address, TTL, hop count, sequence number, declared size
and the body variant (§3, §4.3). -/
structure MessageHeader where
  messageType : ℕ
  vTime : ℚ
  originatorAddress : ℕ
  timeToLive : ℕ
  hopCount : ℕ
  messageSequenceNumber : ℕ
  messageSize : ℕ
  body : Body
deriving DecidableEq

/-- Modelled from the spec: the packet envelope (`PacketHeader` plus its
owned message sequence, missing with `olsr-header.h`): total length,
packet sequence number, and the ordered messages (§3, §4.4). -/
structure PacketEnvelope where
  packetLength : ℕ
  packetSequenceNumber : ℕ
  messages : List MessageHeader
deriving DecidableEq

/-- Modelled from the spec: serialization of an address list, 4 bytes per
address (§4.2). -/
def encodeAddrs (addrs : List ℕ) : List ℕ :=
  (addrs.map writeU32).flatten

/-- Modelled from the spec: `Mid::GetSerializedSize` (§4.2),
`size = 4 * count`. -/
def Mid.serializedSize (m : Mid) : ℕ :=
  4 * m.interfaceAddresses.length

/-- Modelled from the spec: `Mid::Serialize` (§4.2): the interface
addresses back-to-back. -/
def Mid.encode (m : Mid) : List ℕ :=
  encodeAddrs m.interfaceAddresses

/-- Modelled from the spec: the byte size of one Hello link record
(§4.2): a 4-byte record header plus 4 bytes per neighbor address. -/
def LinkMessage.size (lm : LinkMessage) : ℕ :=
  4 + 4 * lm.neighborInterfaceAddresses.length

/-- Modelled from the spec: serialization of one Hello link record (§4.2):
link code, reserved byte, the record's declared size including its own
4-byte header, then the neighbor addresses. -/
def LinkMessage.encode (lm : LinkMessage) : List ℕ :=
  writeU8 lm.linkCode ++ writeU8 0 ++ writeU16 lm.size ++
    encodeAddrs lm.neighborInterfaceAddresses

/-- Modelled from the spec: `Hello::GetSerializedSize` (§4.2): 4 leading
bytes plus the link records. -/
def Hello.serializedSize (h : Hello) : ℕ :=
  4 + (h.linkMessages.map LinkMessage.size).sum

/-- Modelled from the spec: `Hello::Serialize` (§4.2): reserved `u16`,
compact-encoded hello interval, willingness byte, then the link records
contiguously in the caller's order (no coalescing of equal link codes). -/
def Hello.encode (h : Hello) : List ℕ :=
  writeU16 0 ++ writeU8 (SecondsToEmf h.hTime) ++ writeU8 h.willingness ++
    (h.linkMessages.map LinkMessage.encode).flatten

/-- Modelled from the spec: `Tc::GetSerializedSize` (§4.2): 4 leading bytes
plus 4 bytes per neighbor address. -/
def Tc.serializedSize (tc : Tc) : ℕ :=
  4 + 4 * tc.neighborAddresses.length

/-- Modelled from the spec: `Tc::Serialize` (§4.2): `ansn` as `u16`, a
reserved `u16` written as zero, then the neighbor addresses. -/
def Tc.encode (tc : Tc) : List ℕ :=
  writeU16 tc.ansn ++ writeU16 0 ++ encodeAddrs tc.neighborAddresses

/-- Modelled from the spec: `Hna::GetSerializedSize` (§4.2),
`size = 8 * count`. -/
def Hna.serializedSize (h : Hna) : ℕ :=
  8 * h.associations.length

/-- Modelled from the spec: `Hna::Serialize` (§4.2): each association as
the address followed by the mask. -/
def Hna.encode (h : Hna) : List ℕ :=
  (h.associations.map (fun a => writeU32 a.address ++ writeU32 a.mask)).flatten

/-- Modelled from the spec: the serialized size of the active body variant
(§4.2); the opaque variant occupies exactly its raw bytes (§4.3). -/
def Body.serializedSize : Body → ℕ
  | .mid m => m.serializedSize
  | .hello h => h.serializedSize
  | .tc t => t.serializedSize
  | .hna h => h.serializedSize
  | .other bs => bs.length

/-- Modelled from the spec: encoding of the active body variant (§4.2);
the opaque variant is written back byte-for-byte (§4.3). -/
def Body.encode : Body → List ℕ
  | .mid m => m.encode
  | .hello h => h.encode
  | .tc t => t.encode
  | .hna h => h.encode
  | .other bs => bs

/-- Modelled from the spec: `MessageHeader::GetSerializedSize` (§4.3): the
fixed 12-byte message header plus the body. -/
def MessageHeader.serializedSize (msg : MessageHeader) : ℕ :=
  12 + msg.body.serializedSize

/-- Modelled from the spec: `MessageHeader::Serialize` (§4.3): type tag,
compact validity byte, message size (the backpatched
`12 + serializedSize(body)`, modelled by serializing the body first per
§9), originator address, TTL, hop count, sequence number, then the body. -/
def MessageHeader.encode (msg : MessageHeader) : List ℕ :=
  writeU8 msg.messageType ++ writeU8 (SecondsToEmf msg.vTime) ++
    writeU16 msg.serializedSize ++ writeU32 msg.originatorAddress ++
    writeU8 msg.timeToLive ++ writeU8 msg.hopCount ++
    writeU16 msg.messageSequenceNumber ++ msg.body.encode

/-- Modelled from the spec: the total serialized size of a packet (§4.4):
the 4-byte packet header plus all messages. -/
def PacketEnvelope.serializedSize (p : PacketEnvelope) : ℕ :=
  4 + (p.messages.map MessageHeader.serializedSize).sum

/-- Modelled from the spec: `PacketHeader::Serialize` plus the owned
messages (§4.4): the backpatched total length, the packet sequence number,
then each message in order. -/
def PacketEnvelope.encode (p : PacketEnvelope) : List ℕ :=
  writeU16 p.serializedSize ++ writeU16 p.packetSequenceNumber ++
    (p.messages.map MessageHeader.encode).flatten

/-- Modelled from the spec: reading `n` consecutive 4-byte addresses from
the cursor (§4.2). -/
def decodeAddrs : ℕ → List ℕ → Except DecodeError (List ℕ × List ℕ)
  | 0, bs => .ok ([], bs)
  | n + 1, bs => do
    let (a, bs) ← readU32 bs
    let (as, bs) ← decodeAddrs n bs
    .ok (a :: as, bs)

/-- Modelled from the spec: `Mid::Deserialize` (§4.2): reads
`declaredBodySize / 4` addresses, failing with a malformed-length error if
the declared size is not an exact multiple of 4.  The message envelope
hands the body decoder exactly its declared bytes, so the declared body
size is the length of the buffer received. -/
def Mid.decode (bs : List ℕ) : Except DecodeError Mid := do
  if bs.length % 4 ≠ 0 then .error .malformedLength
  else do
    let (as, _) ← decodeAddrs (bs.length / 4) bs
    .ok ⟨as⟩

/-- Modelled from the spec: the size-driven Hello link-record decode loop
(§4.2, §9): an explicit consumed-byte accumulator keyed on the declared
body size, stopping exactly when the remaining budget is exhausted; a
record whose declared size would overrun the remaining budget, is below
its own 4-byte header size, or does not hold a whole number of addresses
is a malformed-message error.  The structurally decreasing fuel argument
is initialized to the remaining byte count and never runs out, because
every record consumes at least 4 bytes. -/
def decodeLinkMessages (fuel : ℕ) (bs : List ℕ) :
    Except DecodeError (List LinkMessage) :=
  match bs with
  | [] => .ok []
  | _ :: _ =>
    match fuel with
    | 0 => .error .bufferUnderrun
    | fuel + 1 => do
      let (code, bs) ← readU8 bs
      let (_reserved, bs) ← readU8 bs
      let (lmSize, bs) ← readU16 bs
      if lmSize < 4 then .error .malformedLength
      else if (lmSize - 4) % 4 ≠ 0 then .error .malformedLength
      else if bs.length < lmSize - 4 then .error .malformedLength
      else do
        let (as, bs) ← decodeAddrs ((lmSize - 4) / 4) bs
        let lms ← decodeLinkMessages fuel bs
        .ok (⟨code, as⟩ :: lms)

/-- Modelled from the spec: `Hello::Deserialize` (§4.2): reserved `u16`,
compact hello-interval byte, willingness byte, then the link records until
the declared body size is exhausted. -/
def Hello.decode (bs : List ℕ) : Except DecodeError Hello := do
  let (_reserved, bs) ← readU16 bs
  let (htimeByte, bs) ← readU8 bs
  let (will, bs) ← readU8 bs
  let lms ← decodeLinkMessages bs.length bs
  .ok ⟨EmfToSeconds htimeByte, will, lms⟩

/-- Modelled from the spec: `Tc::Deserialize` (§4.2): `ansn`, a reserved
`u16` that is ignored, then addresses exactly as the MID list. -/
def Tc.decode (bs : List ℕ) : Except DecodeError Tc := do
  let (ansn, bs) ← readU16 bs
  let (_reserved, bs) ← readU16 bs
  if bs.length % 4 ≠ 0 then .error .malformedLength
  else do
    let (as, _) ← decodeAddrs (bs.length / 4) bs
    .ok ⟨ansn, as⟩

/-- Modelled from the spec: reading `n` consecutive address/mask pairs
from the cursor (§4.2). -/
def decodeAssociations : ℕ → List ℕ →
    Except DecodeError (List Association × List ℕ)
  | 0, bs => .ok ([], bs)
  | n + 1, bs => do
    let (addr, bs) ← readU32 bs
    let (mask, bs) ← readU32 bs
    let (as, bs) ← decodeAssociations n bs
    .ok (⟨addr, mask⟩ :: as, bs)

/-- Modelled from the spec: `Hna::Deserialize` (§4.2): reads
`declaredBodySize / 8` pairs, failing with a malformed-length error if the
declared size is not an exact multiple of 8. -/
def Hna.decode (bs : List ℕ) : Except DecodeError Hna := do
  if bs.length % 8 ≠ 0 then .error .malformedLength
  else do
    let (as, _) ← decodeAssociations (bs.length / 8) bs
    .ok ⟨as⟩

/-- Modelled from the spec: the body-variant decode dispatch keyed by the
message type tag (§4.3); an unrecognized tag yields the opaque raw-bytes
variant holding the body bytes untouched. -/
def Body.decode (messageType : ℕ) (bs : List ℕ) : Except DecodeError Body :=
  if messageType = MID_MESSAGE then Body.mid <$> Mid.decode bs
  else if messageType = HELLO_MESSAGE then Body.hello <$> Hello.decode bs
  else if messageType = TC_MESSAGE then Body.tc <$> Tc.decode bs
  else if messageType = HNA_MESSAGE then Body.hna <$> Hna.decode bs
  else .ok (Body.other bs)

/-- Modelled from the spec: `MessageHeader::Deserialize` (§4.3): reads the
fixed 12-byte header; a declared size below 12 is a malformed-message
error; a cursor with fewer than the declared body bytes is an underrun
error; otherwise the body decoder is dispatched on exactly
`bodyBytes = size - 12` bytes and the cursor advances by exactly
`bodyBytes` regardless of what the variant decoder consumed. -/
def MessageHeader.decode (bs : List ℕ) :
    Except DecodeError (MessageHeader × List ℕ) := do
  let (mtype, bs) ← readU8 bs
  let (vtimeByte, bs) ← readU8 bs
  let (msize, bs) ← readU16 bs
  let (orig, bs) ← readU32 bs
  let (ttl, bs) ← readU8 bs
  let (hop, bs) ← readU8 bs
  let (seq, bs) ← readU16 bs
  if msize < 12 then .error .malformedLength
  else if bs.length < msize - 12 then .error .bufferUnderrun
  else do
    let body ← Body.decode mtype (bs.take (msize - 12))
    .ok (⟨mtype, EmfToSeconds vtimeByte, orig, ttl, hop, seq, msize, body⟩,
      bs.drop (msize - 12))

/-- Modelled from the spec: the size-driven message decode loop of §4.4:
messages are decoded back-to-back from the packet's declared payload until
it is exhausted; there is no message count field.  The structurally
decreasing fuel argument is initialized to the payload byte count and
never runs out, because every message consumes at least 12 bytes. -/
def decodeMessages (fuel : ℕ) (bs : List ℕ) :
    Except DecodeError (List MessageHeader) :=
  match bs with
  | [] => .ok []
  | _ :: _ =>
    match fuel with
    | 0 => .error .bufferUnderrun
    | fuel + 1 => do
      let (msg, bs) ← MessageHeader.decode bs
      let msgs ← decodeMessages fuel bs
      .ok (msg :: msgs)

/-- Modelled from the spec: `PacketHeader::Deserialize` plus the owned
message sequence (§4.4): reads the 4-byte header, then decodes messages
from exactly `length - 4` payload bytes; a declared length below the
4-byte header is a malformed-message error and a cursor with fewer than
the declared payload bytes is an underrun error. -/
def PacketEnvelope.decode (bs : List ℕ) :
    Except DecodeError (PacketEnvelope × List ℕ) := do
  let (plen, bs) ← readU16 bs
  let (pseq, bs) ← readU16 bs
  if plen < 4 then .error .malformedLength
  else if bs.length < plen - 4 then .error .bufferUnderrun
  else do
    let msgs ← decodeMessages (plen - 4) (bs.take (plen - 4))
    .ok (⟨plen, pseq, msgs⟩, bs.drop (plen - 4))

/-- Field ranges a MID body satisfies by construction in the C++ source,
where each interface address is a 4-byte `Ipv4Address`. -/
def Mid.WF (m : Mid) : Prop :=
  ∀ a ∈ m.interfaceAddresses, a < 2 ^ 32

/-- Field ranges a Hello link record satisfies by construction in the C++
source: the link code is a `u8`, the record's declared size fits a `u16`,
and the neighbor addresses are 4-byte addresses. -/
def LinkMessage.WF (lm : LinkMessage) : Prop :=
  lm.linkCode < 256 ∧ lm.size < 65536 ∧
    ∀ a ∈ lm.neighborInterfaceAddresses, a < 2 ^ 32

/-- Field ranges a Hello body satisfies by construction in the C++ source:
the willingness is a `u8` and every link record is well-formed. -/
def Hello.WF (h : Hello) : Prop :=
  h.willingness < 256 ∧ ∀ lm ∈ h.linkMessages, lm.WF

/-- Field ranges a TC body satisfies by construction in the C++ source:
the ANSN is a `u16` and the neighbor addresses are 4-byte addresses. -/
def Tc.WF (t : Tc) : Prop :=
  t.ansn < 65536 ∧ ∀ a ∈ t.neighborAddresses, a < 2 ^ 32

/-- Field ranges an HNA body satisfies by construction in the C++ source:
addresses and masks are 4-byte values. -/
def Hna.WF (h : Hna) : Prop :=
  ∀ a ∈ h.associations, a.address < 2 ^ 32 ∧ a.mask < 2 ^ 32

/-- The body variant is well-formed and agrees with the message's type tag
(§3: the body's variant tag is determined by `type`); an opaque body may
carry any unrecognized `u8` tag and holds raw bytes. -/
def MessageHeader.bodyWF : ℕ → Body → Prop
  | t, .mid m => t = MID_MESSAGE ∧ m.WF
  | t, .hello h => t = HELLO_MESSAGE ∧ h.WF
  | t, .tc tc => t = TC_MESSAGE ∧ tc.WF
  | t, .hna h => t = HNA_MESSAGE ∧ h.WF
  | t, .other bs => t < 256 ∧ t ≠ MID_MESSAGE ∧ t ≠ HELLO_MESSAGE ∧
      t ≠ TC_MESSAGE ∧ t ≠ HNA_MESSAGE ∧ ∀ b ∈ bs, b < 256

/-- Field ranges a message satisfies by construction in the C++ source
(`u8`/`u16`/address fields within their wire widths, total size within the
`u16` size field) together with tag/body agreement. -/
def MessageHeader.WF (msg : MessageHeader) : Prop :=
  msg.originatorAddress < 2 ^ 32 ∧ msg.timeToLive < 256 ∧
    msg.hopCount < 256 ∧ msg.messageSequenceNumber < 65536 ∧
    msg.serializedSize < 65536 ∧
    MessageHeader.bodyWF msg.messageType msg.body

/-- The in-memory durations of the body are fixed points of the lossy
compact time encoding (only the HELLO body carries one). -/
def Body.exactDurations : Body → Prop
  | .hello h => h.hTime = EmfToSeconds (SecondsToEmf h.hTime)
  | _ => True

/-- The message's in-memory values that the wire represents lossily or
recomputes are already in their on-the-wire form: the validity duration
and the hello interval are fixed points of the compact time encoding, and
the stored size field equals the recomputed serialized size (§3
invariant). -/
def MessageHeader.exact (msg : MessageHeader) : Prop :=
  msg.vTime = EmfToSeconds (SecondsToEmf msg.vTime) ∧
    msg.messageSize = msg.serializedSize ∧ msg.body.exactDurations

/-- Field ranges a packet satisfies by construction in the C++ source plus
the §3 length invariant `length == 4 + sum(message sizes)`. -/
def PacketEnvelope.WF (p : PacketEnvelope) : Prop :=
  p.packetLength = p.serializedSize ∧ p.serializedSize < 65536 ∧
    p.packetSequenceNumber < 65536 ∧ ∀ msg ∈ p.messages, msg.WF

/-- The body value produced by a decode of this body's encoding: identical
except that a hello interval comes back through the lossy compact time
encoding. -/
def Body.decodedValue : Body → Body
  | .hello h => .hello ⟨EmfToSeconds (SecondsToEmf h.hTime), h.willingness,
      h.linkMessages⟩
  | b => b

/-- The message value produced by a decode of this message's encoding:
identical except that durations come back through the lossy compact time
encoding and the size field is the recomputed serialized size. -/
def MessageHeader.decodedValue (msg : MessageHeader) : MessageHeader :=
  { msg with
    vTime := EmfToSeconds (SecondsToEmf msg.vTime)
    messageSize := msg.serializedSize
    body := msg.body.decodedValue }

/-- The packet value produced by a decode of this packet's encoding:
identical except for the per-message adjustments of
`MessageHeader.decodedValue` and the recomputed length field. -/
def PacketEnvelope.decodedValue (p : PacketEnvelope) : PacketEnvelope :=
  { p with
    packetLength := p.serializedSize
    messages := p.messages.map MessageHeader.decodedValue }

instance (m : Mid) : Decidable m.WF := by
  unfold Mid.WF
  infer_instance

instance (lm : LinkMessage) : Decidable lm.WF := by
  unfold LinkMessage.WF
  infer_instance

instance (h : Hello) : Decidable h.WF := by
  unfold Hello.WF
  infer_instance

instance (t : Tc) : Decidable t.WF := by
  unfold Tc.WF
  infer_instance

instance (h : Hna) : Decidable h.WF := by
  unfold Hna.WF
  infer_instance

instance (t : ℕ) (b : Body) : Decidable (MessageHeader.bodyWF t b) := by
  cases b <;> simp only [MessageHeader.bodyWF] <;> infer_instance

instance (m : MessageHeader) : Decidable m.WF := by
  unfold MessageHeader.WF
  infer_instance

instance (b : Body) : Decidable b.exactDurations := by
  cases b <;> simp only [Body.exactDurations] <;> infer_instance

instance (m : MessageHeader) : Decidable m.exact := by
  unfold MessageHeader.exact
  infer_instance

instance (p : PacketEnvelope) : Decidable p.WF := by
  unfold PacketEnvelope.WF
  infer_instance

/-- Modelled from the spec and the test suite: a default-constructed
`MessageHeader` before any accessor or setter is called; its type tag is
the reserved value 0 (no body variant selected) and its numeric fields are
zero-initialized. -/
def MessageHeader.mkDefault : MessageHeader :=
  ⟨0, 0, 0, 0, 0, 0, 0, .other []⟩

/-- Modelled from the test suite: `MessageHeader::GetMid` returns a
mutable reference to the MID body and selects the MID variant, setting the
message's type tag as a side effect (the tests never call
`SetMessageType` for msg1 yet it decodes as `MID_MESSAGE`); functionally,
the accessor plus the mutations through the returned reference amount to
storing a MID body and the MID tag. -/
def MessageHeader.GetMid (msg : MessageHeader) (m : Mid) : MessageHeader :=
  { msg with messageType := MID_MESSAGE, body := .mid m }

/-- Modelled from the test suite: `MessageHeader::GetHello`, functionally:
store a HELLO body and set the HELLO tag. -/
def MessageHeader.GetHello (msg : MessageHeader) (h : Hello) :
    MessageHeader :=
  { msg with messageType := HELLO_MESSAGE, body := .hello h }

/-- Modelled from the test suite: `MessageHeader::GetTc`, functionally:
store a TC body and set the TC tag. -/
def MessageHeader.GetTc (msg : MessageHeader) (t : Tc) : MessageHeader :=
  { msg with messageType := TC_MESSAGE, body := .tc t }

/-- Modelled from the test suite: `MessageHeader::GetHna`, functionally:
store an HNA body and set the HNA tag. -/
def MessageHeader.GetHna (msg : MessageHeader) (h : Hna) : MessageHeader :=
  { msg with messageType := HNA_MESSAGE, body := .hna h }

end Olsr

namespace Energy

/-- State of `RvBatteryModel` (translated from `rv-battery-model.cc`): the
member variables the discharge algorithm reads and writes.  Simulation
times are rationals in seconds; `sampleEventScheduled` models whether
`m_currentSampleEvent` is pending. -/
structure RvState where
  lastSampleTime : ℚ
  timeStamps : List ℚ
  previousLoad : ℚ
  batteryLevel : ℚ
  lifetime : ℚ
  load : List ℚ
  alpha : ℚ
  beta : ℚ
  lowBatteryTh : ℚ
  numOfTerms : ℕ
  sampleEventScheduled : Bool
deriving DecidableEq

/-- `RvBatteryModel::RvBatteryModel` (rv-battery-model.cc:86-94) with the
attribute defaults of `GetTypeId` (rv-battery-model.cc:27-84): records the
construction time, pushes it as the first timestamp, sets the previous
load to -1, the battery level to 1 (fully charged) and the lifetime to 0. -/
def RvState.init (now : ℚ) : RvState where
  lastSampleTime := now
  timeStamps := [now]
  previousLoad := -1
  batteryLevel := 1
  lifetime := 0
  load := []
  alpha := 35220
  beta := 637 / 1000
  lowBatteryTh := 1 / 10
  numOfTerms := 10
  sampleEventScheduled := false

/-- `RvBatteryModel::RvModelAFunction` (rv-battery-model.cc:354-371).  The
`exp` parameter stands for `std::exp`, the only operation of the function
with no exact rational counterpart; every time difference is converted to
minutes as in the source (`GetMinutes`, here division by 60). -/
def RvModelAFunction (exp : ℚ → ℚ) (numOfTerms : ℕ)
    (t sk sk1 beta : ℚ) : ℚ :=
  let firstDelta := (t - sk) / 60
  let secondDelta := (t - sk1) / 60
  let delta := (sk - sk1) / 60
  let sum := ∑ m ∈ Finset.Icc 1 numOfTerms,
    (exp (-(beta * beta * m * m) * firstDelta) -
      exp (-(beta * beta * m * m) * secondDelta)) / (beta * beta * m * m)
  delta + 2 * sum

/-- `RvBatteryModel::Discharge` (rv-battery-model.cc:310-352): records the
load when it changes, maintains the timestamp list, updates the last
sample time and returns the new state with the calculated alpha.  Vector
indexing is modelled with `getD`/`headD` (the source indexes only within
bounds along reachable paths). -/
def Discharge (exp : ℚ → ℚ) (load t : ℚ) (s : RvState) : RvState × ℚ :=
  let s1 :=
    if load ≠ s.previousLoad then
      { s with
        load := s.load ++ [load]
        previousLoad := load
        timeStamps := (s.timeStamps.dropLast ++ [s.lastSampleTime]) ++ [t] }
    else
      { s with
        timeStamps :=
          if s.timeStamps.isEmpty then s.timeStamps
          else s.timeStamps.dropLast ++ [t] }
  let s2 := { s1 with lastSampleTime := t }
  let calculatedAlpha :=
    if s2.timeStamps.length = 1 then
      s2.load.headD 0 * RvModelAFunction exp s2.numOfTerms t t 0 s2.beta
    else
      ∑ i ∈ Finset.Icc 1 (s2.timeStamps.length - 1),
        s2.load.getD (i - 1) 0 *
          RvModelAFunction exp s2.numOfTerms t (s2.timeStamps.getD i 0)
            (s2.timeStamps.getD (i - 1) 0) s2.beta
  (s2, calculatedAlpha)

/-- `RvBatteryModel::UpdateEnergySource` (rv-battery-model.cc:131-178):
returns immediately when the battery is already dead (level ≤ 0) or the
simulation has finished; otherwise cancels the pending sample event, runs
`Discharge` on the current load (amperes to milliamperes), computes the
battery level `1 - alpha/m_alpha` clamped at 0, records the lifetime when
the level falls to the low-battery threshold, stores the load and sample
time, and schedules the next sample.  The total current drawn and the
simulation clock are inputs from the surrounding simulator. -/
def UpdateEnergySource (exp : ℚ → ℚ) (now : ℚ) (isFinished : Bool)
    (totalCurrent : ℚ) (s : RvState) : RvState :=
  if s.batteryLevel ≤ 0 then s
  else if isFinished then s
  else
    let s0 := { s with sampleEventScheduled := false }
    let currentLoad := totalCurrent * 1000
    let dres := Discharge exp currentLoad now s0
    let s1 := dres.1
    let calculatedAlpha := dres.2
    let level0 := 1 - calculatedAlpha / s1.alpha
    let level := if level0 < 0 then 0 else level0
    let s2 := { s1 with batteryLevel := level }
    let s3 :=
      if level ≤ s2.lowBatteryTh then
        { s2 with lifetime := now - s2.timeStamps.headD 0 }
      else s2
    { s3 with
      previousLoad := currentLoad
      lastSampleTime := now
      sampleEventScheduled := true }

end Energy

unseal Rat.add Rat.mul Rat.sub Rat.inv

namespace Olsr

theorem ok_bind {α β : Type} (a : α) (f : α → Except DecodeError β) :
    (Except.ok a >>= f) = f a := rfl

theorem error_bind {α β : Type} (e : DecodeError)
    (f : α → Except DecodeError β) :
    ((Except.error e : Except DecodeError α) >>= f) = .error e := rfl

theorem readU8_cons (b : ℕ) (r : List ℕ) : readU8 (b :: r) = .ok (b, r) :=
  rfl

theorem writeU8_append (v : ℕ) (r : List ℕ) :
    writeU8 v ++ r = (v % 256) :: r := rfl

theorem readU8_write (v : ℕ) (r : List ℕ) (h : v < 256) :
    readU8 (writeU8 v ++ r) = .ok (v, r) := by
  rw [writeU8_append, readU8_cons, Nat.mod_eq_of_lt h]

theorem readU16_write (v : ℕ) (r : List ℕ) (h : v < 65536) :
    readU16 (writeU16 v ++ r) = .ok (v, r) := by
  have h1 : v / 256 < 256 := by omega
  have h2 : v % 256 < 256 := by omega
  simp only [readU16, writeU16, List.append_assoc,
    readU8_write _ _ h1, readU8_write _ _ h2, ok_bind]
  congr 2
  omega

theorem readU32_write (v : ℕ) (r : List ℕ) (h : v < 2 ^ 32) :
    readU32 (writeU32 v ++ r) = .ok (v, r) := by
  have h1 : v / 65536 < 65536 := by omega
  have h2 : v % 65536 < 65536 := by omega
  simp only [readU32, writeU32, List.append_assoc,
    readU16_write _ _ h1, readU16_write _ _ h2, ok_bind]
  congr 2
  omega

theorem readU8_ok_shape {bs : List ℕ} {v : ℕ} {r : List ℕ}
    (h : readU8 bs = .ok (v, r)) : bs = v :: r := by
  cases bs with
  | nil => exact absurd h (by simp [readU8])
  | cons b t =>
    rw [readU8_cons] at h
    cases h
    rfl

theorem readU16_ok_len {bs : List ℕ} {v : ℕ} {r : List ℕ}
    (h : readU16 bs = .ok (v, r)) : bs.length = 2 + r.length := by
  cases bs with
  | nil => exact absurd h (by simp [readU16, readU8, error_bind])
  | cons b t =>
    cases t with
    | nil => exact absurd h (by simp [readU16, readU8, ok_bind, error_bind])
    | cons c u =>
      simp only [readU16, readU8_cons, ok_bind, Except.ok.injEq,
        Prod.mk.injEq] at h
      obtain ⟨-, hr⟩ := h
      subst hr
      simp only [List.length_cons]
      omega

theorem readU32_ok_len {bs : List ℕ} {v : ℕ} {r : List ℕ}
    (h : readU32 bs = .ok (v, r)) : bs.length = 4 + r.length := by
  simp only [readU32] at h
  cases h16 : readU16 bs with
  | error e => rw [h16, error_bind] at h; cases h
  | ok p =>
    obtain ⟨hi, bs1⟩ := p
    simp only [h16, ok_bind] at h
    cases h16b : readU16 bs1 with
    | error e => rw [h16b, error_bind] at h; cases h
    | ok q =>
      obtain ⟨lo, bs2⟩ := q
      simp only [h16b, ok_bind, Except.ok.injEq, Prod.mk.injEq] at h
      obtain ⟨-, hr⟩ := h
      subst hr
      have := readU16_ok_len h16
      have := readU16_ok_len h16b
      omega

theorem writeU32_length (v : ℕ) : (writeU32 v).length = 4 := rfl

theorem encodeAddrs_length (as : List ℕ) :
    (encodeAddrs as).length = 4 * as.length := by
  induction as with
  | nil => rfl
  | cons a t ih =>
    simp only [encodeAddrs, List.map_cons, List.flatten_cons,
      List.length_append, List.length_cons, writeU32_length] at *
    omega

theorem encodeAddrs_cons (a : ℕ) (t : List ℕ) :
    encodeAddrs (a :: t) = writeU32 a ++ encodeAddrs t := by
  simp [encodeAddrs]

theorem decodeAddrs_encode (as : List ℕ) (r : List ℕ)
    (h : ∀ a ∈ as, a < 2 ^ 32) :
    decodeAddrs as.length (encodeAddrs as ++ r) = .ok (as, r) := by
  induction as with
  | nil => rfl
  | cons a t ih =>
    have ha : a < 2 ^ 32 := h a (List.mem_cons_self a t)
    simp only [List.length_cons, decodeAddrs, encodeAddrs_cons,
      List.append_assoc, readU32_write _ _ ha, ok_bind,
      ih (fun x hx => h x (List.mem_cons_of_mem a hx)), ok_bind]

theorem decodeAddrs_ok {n : ℕ} {bs as r : List ℕ}
    (h : decodeAddrs n bs = .ok (as, r)) :
    as.length = n ∧ bs.length = 4 * n + r.length := by
  induction n generalizing bs as r with
  | zero =>
    simp only [decodeAddrs] at h
    cases h
    simp
  | succ k ih =>
    simp only [decodeAddrs] at h
    cases h32 : readU32 bs with
    | error e => rw [h32, error_bind] at h; cases h
    | ok p =>
      obtain ⟨a, bs1⟩ := p
      simp only [h32, ok_bind] at h
      cases hrec : decodeAddrs k bs1 with
      | error e => rw [hrec, error_bind] at h; cases h
      | ok q =>
        obtain ⟨as1, r1⟩ := q
        simp only [hrec, ok_bind, Except.ok.injEq, Prod.mk.injEq] at h
        obtain ⟨has, hr⟩ := h
        subst has
        subst hr
        have h4 := readU32_ok_len h32
        have ⟨hl, hc⟩ := ih hrec
        refine ⟨?_, ?_⟩
        · simp only [List.length_cons]
          omega
        · omega

theorem decodeAddrs_encode_nil (as : List ℕ) (h : ∀ a ∈ as, a < 2 ^ 32) :
    decodeAddrs as.length (encodeAddrs as) = .ok (as, []) := by
  have := decodeAddrs_encode as [] h
  rwa [List.append_nil] at this

theorem mid_encode_length (m : Mid) : m.encode.length = m.serializedSize := by
  simp [Mid.encode, Mid.serializedSize, encodeAddrs_length]

theorem mid_decode_encode (m : Mid) (h : m.WF) : Mid.decode m.encode = .ok m := by
  simp only [Mid.decode, Mid.encode, encodeAddrs_length, Nat.mul_mod_right]
  rw [if_neg (by omega),
    Nat.mul_div_cancel_left m.interfaceAddresses.length
      (by norm_num : (0:ℕ) < 4),
    decodeAddrs_encode_nil _ h, ok_bind]

theorem mid_decode_ok_size {bs : List ℕ} {m : Mid}
    (h : Mid.decode bs = .ok m) : m.serializedSize = bs.length := by
  simp only [Mid.decode] at h
  by_cases hm : bs.length % 4 = 0
  · rw [if_neg (by omega)] at h
    cases hd : decodeAddrs (bs.length / 4) bs with
    | error e => rw [hd, error_bind] at h; cases h
    | ok p =>
      obtain ⟨as, r⟩ := p
      simp only [hd, ok_bind] at h
      cases h
      have := (decodeAddrs_ok hd).1
      simp only [Mid.serializedSize, this]
      omega
  · rw [if_pos (by omega)] at h
    cases h

theorem tc_encode_length (t : Tc) : t.encode.length = t.serializedSize := by
  simp [Tc.encode, Tc.serializedSize, writeU16, writeU8, encodeAddrs_length]
  omega

theorem tc_decode_reserved (t : Tc) (resv : ℕ) (hr : resv < 65536)
    (h : t.WF) :
    Tc.decode (writeU16 t.ansn ++ writeU16 resv ++
      encodeAddrs t.neighborAddresses) = .ok t := by
  obtain ⟨hansn, haddr⟩ := h
  simp only [Tc.decode, List.append_assoc, readU16_write _ _ hansn, ok_bind,
    readU16_write _ _ hr, ok_bind, encodeAddrs_length, Nat.mul_mod_right,
    Nat.mul_div_cancel_left _ (by norm_num : (0:ℕ) < 4)]
  rw [if_neg (by omega)]
  rw [decodeAddrs_encode_nil _ haddr, ok_bind]

theorem tc_decode_encode (t : Tc) (h : t.WF) : Tc.decode t.encode = .ok t :=
  tc_decode_reserved t 0 (by norm_num) h

theorem tc_decode_ok_size {bs : List ℕ} {t : Tc}
    (h : Tc.decode bs = .ok t) : t.serializedSize = bs.length := by
  simp only [Tc.decode] at h
  cases h16 : readU16 bs with
  | error e => rw [h16, error_bind] at h; cases h
  | ok p =>
    obtain ⟨ansn, bs1⟩ := p
    simp only [h16, ok_bind] at h
    cases h16b : readU16 bs1 with
    | error e => rw [h16b, error_bind] at h; cases h
    | ok q =>
      obtain ⟨resv, bs2⟩ := q
      simp only [h16b, ok_bind] at h
      by_cases hm : bs2.length % 4 = 0
      · rw [if_neg (by omega)] at h
        cases hd : decodeAddrs (bs2.length / 4) bs2 with
        | error e => rw [hd, error_bind] at h; cases h
        | ok w =>
          obtain ⟨as, r⟩ := w
          simp only [hd, ok_bind] at h
          cases h
          have hlen := (decodeAddrs_ok hd).1
          have h1 := readU16_ok_len h16
          have h2 := readU16_ok_len h16b
          simp only [Tc.serializedSize, hlen]
          omega
      · rw [if_pos (by omega)] at h
        cases h

theorem decodeAssociations_encode (as : List Association) (r : List ℕ)
    (h : ∀ a ∈ as, a.address < 2 ^ 32 ∧ a.mask < 2 ^ 32) :
    decodeAssociations as.length
      ((as.map (fun a => writeU32 a.address ++ writeU32 a.mask)).flatten ++ r)
      = .ok (as, r) := by
  induction as with
  | nil => rfl
  | cons a t ih =>
    have ha := h a (List.mem_cons_self a t)
    simp only [List.length_cons, decodeAssociations, List.map_cons,
      List.flatten_cons, List.append_assoc, readU32_write _ _ ha.1, ok_bind,
      readU32_write _ _ ha.2, ok_bind,
      ih (fun x hx => h x (List.mem_cons_of_mem a hx)), ok_bind]

theorem decodeAssociations_ok {n : ℕ} {bs : List ℕ} {as : List Association}
    {r : List ℕ} (h : decodeAssociations n bs = .ok (as, r)) :
    as.length = n ∧ bs.length = 8 * n + r.length := by
  induction n generalizing bs as r with
  | zero =>
    simp only [decodeAssociations] at h
    cases h
    simp
  | succ k ih =>
    simp only [decodeAssociations] at h
    cases h32 : readU32 bs with
    | error e => rw [h32, error_bind] at h; cases h
    | ok p =>
      obtain ⟨a, bs1⟩ := p
      simp only [h32, ok_bind] at h
      cases h32b : readU32 bs1 with
      | error e => rw [h32b, error_bind] at h; cases h
      | ok q =>
        obtain ⟨msk, bs2⟩ := q
        simp only [h32b, ok_bind] at h
        cases hrec : decodeAssociations k bs2 with
        | error e => rw [hrec, error_bind] at h; cases h
        | ok w =>
          obtain ⟨as1, r1⟩ := w
          simp only [hrec, ok_bind, Except.ok.injEq, Prod.mk.injEq] at h
          obtain ⟨has, hr⟩ := h
          subst has
          subst hr
          have h4 := readU32_ok_len h32
          have h4b := readU32_ok_len h32b
          have ⟨hl, hc⟩ := ih hrec
          refine ⟨?_, ?_⟩
          · simp only [List.length_cons]
            omega
          · omega

theorem hna_encode_length (h : Hna) : h.encode.length = h.serializedSize := by
  simp only [Hna.encode, Hna.serializedSize]
  induction h.associations with
  | nil => rfl
  | cons a t ih =>
    simp only [List.map_cons, List.flatten_cons, List.length_append,
      List.length_cons, ih]
    simp [writeU32, writeU16, writeU8]
    omega

theorem hna_decode_encode (h : Hna) (hwf : h.WF) :
    Hna.decode h.encode = .ok h := by
  have hlen : h.encode.length = 8 * h.associations.length :=
    (hna_encode_length h).trans rfl
  simp only [Hna.decode, hlen, Nat.mul_mod_right,
    Nat.mul_div_cancel_left _ (by norm_num : (0:ℕ) < 8)]
  rw [if_neg (by omega)]
  have := decodeAssociations_encode h.associations [] hwf
  rw [List.append_nil] at this
  rw [show (Hna.encode h : List ℕ) =
    (h.associations.map (fun a => writeU32 a.address ++ writeU32 a.mask)).flatten
    from rfl, this]
  rfl

theorem hna_decode_ok_size {bs : List ℕ} {h : Hna}
    (hd : Hna.decode bs = .ok h) : h.serializedSize = bs.length := by
  simp only [Hna.decode] at hd
  by_cases hm : bs.length % 8 = 0
  · rw [if_neg (by omega)] at hd
    cases hda : decodeAssociations (bs.length / 8) bs with
    | error e => rw [hda, error_bind] at hd; cases hd
    | ok p =>
      obtain ⟨as, r⟩ := p
      simp only [hda, ok_bind] at hd
      cases hd
      have := (decodeAssociations_ok hda).1
      simp only [Hna.serializedSize, this]
      omega
  · rw [if_pos (by omega)] at hd
    cases hd

theorem SecondsToEmf_lt (t : ℚ) : SecondsToEmf t < 256 := by
  unfold SecondsToEmf
  cases hf : (List.range 16).find? (fun b => decide (emfMantissa t b ≤ 15)) with
  | none => norm_num
  | some b =>
    have hb16 : b < 16 :=
      List.mem_range.mp (List.mem_of_find?_eq_some hf)
    have hm : (max 0 (min 15 (emfMantissa t b))).toNat ≤ 15 := by omega
    show 16 * b + (max 0 (min 15 (emfMantissa t b))).toNat < 256
    omega

theorem linkMessage_encode_length (lm : LinkMessage) :
    lm.encode.length = lm.size := by
  simp only [LinkMessage.encode, LinkMessage.size, List.length_append,
    writeU8, writeU16, encodeAddrs_length, List.length_cons,
    List.length_append, List.length_nil]

theorem linkMessages_encode_length (lms : List LinkMessage) :
    ((lms.map LinkMessage.encode).flatten).length =
      (lms.map LinkMessage.size).sum := by
  induction lms with
  | nil => rfl
  | cons lm t ih =>
    simp only [List.map_cons, List.flatten_cons, List.length_append, ih,
      List.sum_cons, linkMessage_encode_length]

theorem linkMessages_count_le_sum (lms : List LinkMessage) :
    lms.length ≤ (lms.map LinkMessage.size).sum := by
  induction lms with
  | nil => simp
  | cons lm t ih =>
    simp only [List.length_cons, List.map_cons, List.sum_cons]
    have h4 : 4 ≤ lm.size := by
      simp [LinkMessage.size]
    omega

theorem decodeLinkMessages_encode (lms : List LinkMessage) (fuel : ℕ)
    (hwf : ∀ lm ∈ lms, lm.WF) (hfuel : lms.length ≤ fuel) :
    decodeLinkMessages fuel (lms.map LinkMessage.encode).flatten = .ok lms := by
  induction lms generalizing fuel with
  | nil => cases fuel <;> rfl
  | cons lm t ih =>
    obtain ⟨hcode, hsize, haddr⟩ := hwf lm (List.mem_cons_self lm t)
    cases fuel with
    | zero => simp at hfuel
    | succ f =>
      have hs : lm.size = 4 + 4 * lm.neighborInterfaceAddresses.length := rfl
      have hshape : (List.map LinkMessage.encode (lm :: t)).flatten =
          lm.linkCode :: 0 :: (writeU16 lm.size ++
            (encodeAddrs lm.neighborInterfaceAddresses ++
              (t.map LinkMessage.encode).flatten)) := by
        simp only [List.map_cons, List.flatten_cons, LinkMessage.encode,
          writeU8_append, List.append_assoc, List.cons_append]
        rw [Nat.mod_eq_of_lt hcode]
      rw [hshape]
      simp only [decodeLinkMessages, readU8_cons, ok_bind,
        readU16_write _ _ hsize, ok_bind]
      rw [if_neg (by omega)]
      rw [if_neg (by rw [hs]; omega)]
      rw [if_neg (by
        simp only [List.length_append, encodeAddrs_length]
        rw [hs]
        omega)]
      have hn : (lm.size - 4) / 4 = lm.neighborInterfaceAddresses.length := by
        rw [hs]
        omega
      rw [hn, decodeAddrs_encode _ _ haddr, ok_bind,
        ih f (fun x hx => hwf x (List.mem_cons_of_mem lm hx))
          (by simp only [List.length_cons] at hfuel; omega), ok_bind]

theorem decodeLinkMessages_ok {fuel : ℕ} {bs : List ℕ}
    {lms : List LinkMessage}
    (h : decodeLinkMessages fuel bs = .ok lms) :
    (lms.map LinkMessage.size).sum = bs.length := by
  induction fuel generalizing bs lms with
  | zero =>
    cases bs with
    | nil =>
      simp only [decodeLinkMessages] at h
      cases h
      rfl
    | cons b0 t0 => exact absurd h (by simp [decodeLinkMessages])
  | succ f ih =>
    cases bs with
    | nil =>
      simp only [decodeLinkMessages] at h
      cases h
      rfl
    | cons b0 t0 =>
      cases t0 with
      | nil =>
        exact absurd h
          (by simp [decodeLinkMessages, readU8, ok_bind, error_bind])
      | cons b1 t1 =>
        simp only [decodeLinkMessages, readU8_cons, ok_bind] at h
        cases h16 : readU16 t1 with
        | error e => rw [h16, error_bind] at h; cases h
        | ok p =>
          obtain ⟨lmSize, bs3⟩ := p
          simp only [h16, ok_bind] at h
          by_cases h4 : lmSize < 4
          · rw [if_pos h4] at h
            cases h
          rw [if_neg h4] at h
          by_cases hmod : (lmSize - 4) % 4 = 0
          · rw [if_neg (by omega)] at h
            by_cases hbud : bs3.length < lmSize - 4
            · rw [if_pos hbud] at h
              cases h
            rw [if_neg hbud] at h
            cases hda : decodeAddrs ((lmSize - 4) / 4) bs3 with
            | error e => rw [hda, error_bind] at h; cases h
            | ok q =>
              obtain ⟨as, bs4⟩ := q
              simp only [hda, ok_bind] at h
              cases hrec : decodeLinkMessages f bs4 with
              | error e => rw [hrec, error_bind] at h; cases h
              | ok ls =>
                simp only [hrec, ok_bind, Except.ok.injEq] at h
                subst h
                have hl := readU16_ok_len h16
                have ⟨ha, hc⟩ := decodeAddrs_ok hda
                have hsum := ih hrec
                simp only [List.map_cons, List.sum_cons, LinkMessage.size, ha]
                simp only [List.length_cons]
                omega
          · rw [if_pos (by omega)] at h
            cases h

theorem hello_encode_length (h : Hello) : h.encode.length = h.serializedSize := by
  simp only [Hello.encode, Hello.serializedSize, List.length_append,
    writeU16, writeU8, List.length_append, List.length_cons, List.length_nil,
    linkMessages_encode_length]

theorem hello_decode_encode (h : Hello) (hwf : h.WF) :
    Hello.decode h.encode =
      .ok ⟨EmfToSeconds (SecondsToEmf h.hTime), h.willingness,
        h.linkMessages⟩ := by
  obtain ⟨hwill, hlms⟩ := hwf
  simp only [Hello.decode, Hello.encode, List.append_assoc,
    readU16_write 0 _ (by norm_num), ok_bind,
    readU8_write _ _ (SecondsToEmf_lt h.hTime), ok_bind,
    readU8_write _ _ hwill, ok_bind]
  rw [decodeLinkMessages_encode h.linkMessages _ hlms
    (by rw [linkMessages_encode_length]; exact linkMessages_count_le_sum _),
    ok_bind]

theorem hello_decode_ok_size {bs : List ℕ} {h : Hello}
    (hd : Hello.decode bs = .ok h) : h.serializedSize = bs.length := by
  simp only [Hello.decode] at hd
  cases h16 : readU16 bs with
  | error e => rw [h16, error_bind] at hd; cases hd
  | ok p =>
    obtain ⟨resv, bs1⟩ := p
    simp only [h16, ok_bind] at hd
    cases bs1 with
    | nil => exact absurd hd (by simp [readU8, error_bind])
    | cons b0 t0 =>
      cases t0 with
      | nil =>
        exact absurd hd (by simp [readU8_cons, readU8, ok_bind, error_bind])
      | cons b1 t1 =>
        simp only [readU8_cons, ok_bind] at hd
        cases hlm : decodeLinkMessages t1.length t1 with
        | error e => rw [hlm, error_bind] at hd; cases hd
        | ok lms =>
          simp only [hlm, ok_bind, Except.ok.injEq] at hd
          subst hd
          have hsum := decodeLinkMessages_ok hlm
          have hl := readU16_ok_len h16
          simp only [Hello.serializedSize, hsum]
          simp only [List.length_cons] at hl ⊢
          omega

theorem map_ok {α β : Type} (f : α → β) (a : α) :
    (f <$> (Except.ok a : Except DecodeError α)) = .ok (f a) := rfl

theorem map_error {α β : Type} (f : α → β) (e : DecodeError) :
    (f <$> (Except.error e : Except DecodeError α)) = .error e := rfl

theorem readU8_ok_drop {bs : List ℕ} {v : ℕ} {r : List ℕ}
    (h : readU8 bs = .ok (v, r)) : r = bs.drop 1 := by
  rw [readU8_ok_shape h]
  rfl

theorem readU16_ok_drop {bs : List ℕ} {v : ℕ} {r : List ℕ}
    (h : readU16 bs = .ok (v, r)) : r = bs.drop 2 := by
  simp only [readU16] at h
  cases h1 : readU8 bs with
  | error e => rw [h1, error_bind] at h; cases h
  | ok p =>
    obtain ⟨b0, bs1⟩ := p
    simp only [h1, ok_bind] at h
    cases h2 : readU8 bs1 with
    | error e => rw [h2, error_bind] at h; cases h
    | ok q =>
      obtain ⟨b1, bs2⟩ := q
      simp only [h2, ok_bind, Except.ok.injEq, Prod.mk.injEq] at h
      obtain ⟨-, hr⟩ := h
      subst hr
      rw [readU8_ok_shape h1, readU8_ok_shape h2]
      rfl

theorem readU32_ok_drop {bs : List ℕ} {v : ℕ} {r : List ℕ}
    (h : readU32 bs = .ok (v, r)) : r = bs.drop 4 := by
  simp only [readU32] at h
  cases h1 : readU16 bs with
  | error e => rw [h1, error_bind] at h; cases h
  | ok p =>
    obtain ⟨hi, bs1⟩ := p
    simp only [h1, ok_bind] at h
    cases h2 : readU16 bs1 with
    | error e => rw [h2, error_bind] at h; cases h
    | ok q =>
      obtain ⟨lo, bs2⟩ := q
      simp only [h2, ok_bind, Except.ok.injEq, Prod.mk.injEq] at h
      obtain ⟨-, hr⟩ := h
      subst hr
      rw [readU16_ok_drop h2, readU16_ok_drop h1, List.drop_drop]

theorem body_encode_length (b : Body) : b.encode.length = b.serializedSize := by
  cases b with
  | mid m => exact mid_encode_length m
  | hello h => exact hello_encode_length h
  | tc t => exact tc_encode_length t
  | hna h => exact hna_encode_length h
  | other bs => rfl

theorem message_encode_length (msg : MessageHeader) :
    msg.encode.length = msg.serializedSize := by
  simp only [MessageHeader.encode, MessageHeader.serializedSize,
    List.length_append, writeU8, writeU16, writeU32, List.length_cons,
    List.length_nil, List.length_append, body_encode_length]

theorem bodyWF_tag_lt {t : ℕ} {b : Body}
    (h : MessageHeader.bodyWF t b) : t < 256 := by
  cases b with
  | mid m => rw [h.1]; norm_num [MID_MESSAGE]
  | hello hh => rw [h.1]; norm_num [HELLO_MESSAGE]
  | tc tc => rw [h.1]; norm_num [TC_MESSAGE]
  | hna hh => rw [h.1]; norm_num [HNA_MESSAGE]
  | other bs => exact h.1

theorem body_decode_encode (t : ℕ) (b : Body)
    (h : MessageHeader.bodyWF t b) :
    Body.decode t b.encode = .ok b.decodedValue := by
  cases b with
  | mid m =>
    rw [h.1]
    simp [Body.decode, MID_MESSAGE, HELLO_MESSAGE, TC_MESSAGE, HNA_MESSAGE,
      Body.encode, mid_decode_encode m h.2, Body.decodedValue]
  | hello hh =>
    rw [h.1]
    simp [Body.decode, MID_MESSAGE, HELLO_MESSAGE, TC_MESSAGE, HNA_MESSAGE,
      Body.encode, hello_decode_encode hh h.2, Body.decodedValue]
  | tc tc =>
    rw [h.1]
    simp [Body.decode, MID_MESSAGE, HELLO_MESSAGE, TC_MESSAGE, HNA_MESSAGE,
      Body.encode, tc_decode_encode tc h.2, Body.decodedValue]
  | hna hh =>
    rw [h.1]
    simp [Body.decode, MID_MESSAGE, HELLO_MESSAGE, TC_MESSAGE, HNA_MESSAGE,
      Body.encode, hna_decode_encode hh h.2, Body.decodedValue]
  | other bs =>
    obtain ⟨-, h1, h2, h3, h4, -⟩ := h
    simp [Body.decode, Body.encode, Body.decodedValue, h1, h2, h3, h4]

theorem body_decode_ok_size {t : ℕ} {bs : List ℕ} {b : Body}
    (h : Body.decode t bs = .ok b) : b.serializedSize = bs.length := by
  simp only [Body.decode] at h
  split_ifs at h
  · cases hm : Mid.decode bs with
    | error e => rw [hm, map_error] at h; cases h
    | ok m =>
      rw [hm, map_ok] at h
      cases h
      exact mid_decode_ok_size hm
  · cases hm : Hello.decode bs with
    | error e => rw [hm, map_error] at h; cases h
    | ok m =>
      rw [hm, map_ok] at h
      cases h
      exact hello_decode_ok_size hm
  · cases hm : Tc.decode bs with
    | error e => rw [hm, map_error] at h; cases h
    | ok m =>
      rw [hm, map_ok] at h
      cases h
      exact tc_decode_ok_size hm
  · cases hm : Hna.decode bs with
    | error e => rw [hm, map_error] at h; cases h
    | ok m =>
      rw [hm, map_ok] at h
      cases h
      exact hna_decode_ok_size hm
  · cases h
    rfl

theorem message_decode_encode (msg : MessageHeader) (r : List ℕ)
    (hwf : msg.WF) :
    MessageHeader.decode (msg.encode ++ r) = .ok (msg.decodedValue, r) := by
  obtain ⟨horig, httl, hhop, hseq, hsize, hbody⟩ := hwf
  have hbl : msg.body.encode.length = msg.body.serializedSize :=
    body_encode_length msg.body
  simp only [MessageHeader.decode, MessageHeader.encode, List.append_assoc,
    readU8_write _ _ (bodyWF_tag_lt hbody), ok_bind,
    readU8_write _ _ (SecondsToEmf_lt msg.vTime), ok_bind,
    readU16_write _ _ hsize, ok_bind,
    readU32_write _ _ horig, ok_bind,
    readU8_write _ _ httl, ok_bind,
    readU8_write _ _ hhop, ok_bind,
    readU16_write _ _ hseq, ok_bind]
  rw [if_neg (by simp only [MessageHeader.serializedSize]; omega)]
  rw [if_neg (by
    simp only [List.length_append, hbl, MessageHeader.serializedSize]
    omega)]
  have hcount : msg.serializedSize - 12 = msg.body.encode.length := by
    simp only [MessageHeader.serializedSize, hbl]
    omega
  rw [hcount, List.take_left, List.drop_left,
    body_decode_encode _ _ hbody, ok_bind]
  rfl

theorem message_decode_ok {bs : List ℕ} {m : MessageHeader}
    {r : List ℕ} (h : MessageHeader.decode bs = .ok (m, r)) :
    m.messageSize = 12 + m.body.serializedSize ∧
      bs.length = m.messageSize + r.length ∧ r = bs.drop m.messageSize := by
  simp only [MessageHeader.decode] at h
  cases h1 : readU8 bs with
  | error e => rw [h1, error_bind] at h; cases h
  | ok p1 =>
    obtain ⟨mtype, bs1⟩ := p1
    simp only [h1, ok_bind] at h
    cases h2 : readU8 bs1 with
    | error e => rw [h2, error_bind] at h; cases h
    | ok p2 =>
      obtain ⟨vb, bs2⟩ := p2
      simp only [h2, ok_bind] at h
      cases h3 : readU16 bs2 with
      | error e => rw [h3, error_bind] at h; cases h
      | ok p3 =>
        obtain ⟨msize, bs3⟩ := p3
        simp only [h3, ok_bind] at h
        cases h4 : readU32 bs3 with
        | error e => rw [h4, error_bind] at h; cases h
        | ok p4 =>
          obtain ⟨orig, bs4⟩ := p4
          simp only [h4, ok_bind] at h
          cases h5 : readU8 bs4 with
          | error e => rw [h5, error_bind] at h; cases h
          | ok p5 =>
            obtain ⟨ttl, bs5⟩ := p5
            simp only [h5, ok_bind] at h
            cases h6 : readU8 bs5 with
            | error e => rw [h6, error_bind] at h; cases h
            | ok p6 =>
              obtain ⟨hop, bs6⟩ := p6
              simp only [h6, ok_bind] at h
              cases h7 : readU16 bs6 with
              | error e => rw [h7, error_bind] at h; cases h
              | ok p7 =>
                obtain ⟨seq, bs7⟩ := p7
                simp only [h7, ok_bind] at h
                by_cases hm12 : msize < 12
                · rw [if_pos hm12] at h
                  cases h
                rw [if_neg hm12] at h
                by_cases hbud : bs7.length < msize - 12
                · rw [if_pos hbud] at h
                  cases h
                rw [if_neg hbud] at h
                cases hbd : Body.decode mtype (bs7.take (msize - 12)) with
                | error e => rw [hbd, error_bind] at h; cases h
                | ok b =>
                  simp only [hbd, ok_bind, Except.ok.injEq,
                    Prod.mk.injEq] at h
                  obtain ⟨hmsg, hr⟩ := h
                  subst hmsg
                  subst hr
                  have hbsz := body_decode_ok_size hbd
                  have htake : (bs7.take (msize - 12)).length = msize - 12 :=
                    by
                    rw [List.length_take]
                    omega
                  have hl1 := readU8_ok_shape h1
                  have hl2 := readU8_ok_shape h2
                  have hl3 := readU16_ok_len h3
                  have hl4 := readU32_ok_len h4
                  have hl5 := readU8_ok_shape h5
                  have hl6 := readU8_ok_shape h6
                  have hl7 := readU16_ok_len h7
                  have hd1 := readU8_ok_drop h1
                  have hd2 := readU8_ok_drop h2
                  have hd3 := readU16_ok_drop h3
                  have hd4 := readU32_ok_drop h4
                  have hd5 := readU8_ok_drop h5
                  have hd6 := readU8_ok_drop h6
                  have hd7 := readU16_ok_drop h7
                  refine ⟨?_, ?_, ?_⟩
                  · show msize = 12 + b.serializedSize
                    rw [hbsz, htake]
                    omega
                  · show bs.length = msize + (bs7.drop (msize - 12)).length
                    have hbs : bs.length = 12 + bs7.length := by
                      subst hl1
                      subst hl2
                      subst hd3
                      subst hl5
                      subst hl6
                      subst hd7
                      simp only [List.length_cons, List.length_drop] at *
                      omega
                    simp only [List.length_drop]
                    omega
                  · show bs7.drop (msize - 12) = bs.drop msize
                    have hdrops : bs7 = bs.drop 12 := by
                      rw [hd7, hd6, hd5, hd4, hd3, hd2, hd1]
                      simp only [List.drop_drop]
                    rw [hdrops, List.drop_drop]
                    congr 1
                    omega

theorem messages_encode_length (msgs : List MessageHeader) :
    ((msgs.map MessageHeader.encode).flatten).length =
      (msgs.map MessageHeader.serializedSize).sum := by
  induction msgs with
  | nil => rfl
  | cons m t ih =>
    simp only [List.map_cons, List.flatten_cons, List.length_append, ih,
      List.sum_cons, message_encode_length]

theorem messages_count_le_sum (msgs : List MessageHeader) :
    msgs.length ≤ (msgs.map MessageHeader.serializedSize).sum := by
  induction msgs with
  | nil => simp
  | cons m t ih =>
    simp only [List.length_cons, List.map_cons, List.sum_cons]
    have h12 : 12 ≤ m.serializedSize := by
      simp [MessageHeader.serializedSize]
    omega

theorem message_encode_ne_nil (m : MessageHeader) :
    ∃ b0 tl, m.encode = b0 :: tl := by
  cases hme : m.encode with
  | nil =>
    have := message_encode_length m
    rw [hme] at this
    simp only [List.length_nil, MessageHeader.serializedSize] at this
    omega
  | cons a b => exact ⟨a, b, rfl⟩

theorem decodeMessages_encode (msgs : List MessageHeader) (fuel : ℕ)
    (hwf : ∀ m ∈ msgs, m.WF) (hfuel : msgs.length ≤ fuel) :
    decodeMessages fuel (msgs.map MessageHeader.encode).flatten =
      .ok (msgs.map MessageHeader.decodedValue) := by
  induction msgs generalizing fuel with
  | nil => cases fuel <;> rfl
  | cons m t ih =>
    cases fuel with
    | zero => simp at hfuel
    | succ f =>
      obtain ⟨b0, tl, he⟩ := message_encode_ne_nil m
      have hflat : (List.map MessageHeader.encode (m :: t)).flatten =
          b0 :: (tl ++ (t.map MessageHeader.encode).flatten) := by
        simp only [List.map_cons, List.flatten_cons, he, List.cons_append]
      rw [hflat]
      show (do
        let (msg, bs) ← MessageHeader.decode
          (b0 :: (tl ++ (t.map MessageHeader.encode).flatten))
        let msgs ← decodeMessages f bs
        .ok (msg :: msgs)) = _
      rw [show b0 :: (tl ++ (t.map MessageHeader.encode).flatten) =
        m.encode ++ (t.map MessageHeader.encode).flatten by
          rw [he, List.cons_append]]
      rw [message_decode_encode m _ (hwf m (List.mem_cons_self m t)),
        ok_bind]
      show (do
        let msgs ← decodeMessages f (t.map MessageHeader.encode).flatten
        Except.ok (m.decodedValue :: msgs)) = _
      rw [ih f (fun x hx => hwf x (List.mem_cons_of_mem m hx))
          (by simp only [List.length_cons] at hfuel; omega), ok_bind]
      rfl

theorem decodeMessages_ok {fuel : ℕ} {bs : List ℕ}
    {msgs : List MessageHeader}
    (h : decodeMessages fuel bs = .ok msgs) :
    (msgs.map MessageHeader.messageSize).sum = bs.length := by
  induction fuel generalizing bs msgs with
  | zero =>
    cases bs with
    | nil =>
      simp only [decodeMessages] at h
      cases h
      rfl
    | cons b0 t0 => exact absurd h (by simp [decodeMessages])
  | succ f ih =>
    cases bs with
    | nil =>
      simp only [decodeMessages] at h
      cases h
      rfl
    | cons b0 t0 =>
      simp only [decodeMessages] at h
      cases hd : MessageHeader.decode (b0 :: t0) with
      | error e => rw [hd, error_bind] at h; cases h
      | ok p =>
        obtain ⟨m, rest⟩ := p
        simp only [hd, ok_bind] at h
        cases hrec : decodeMessages f rest with
        | error e => rw [hrec, error_bind] at h; cases h
        | ok ms =>
          simp only [hrec, ok_bind, Except.ok.injEq] at h
          subst h
          obtain ⟨-, hc, -⟩ := message_decode_ok hd
          have hsum := ih hrec
          simp only [List.map_cons, List.sum_cons, hsum]
          omega

theorem packet_decode_encode (p : PacketEnvelope) (r : List ℕ)
    (hwf : p.WF) :
    PacketEnvelope.decode (p.encode ++ r) = .ok (p.decodedValue, r) := by
  obtain ⟨hlen, hsz, hseq, hmsg⟩ := hwf
  have hflat : ((p.messages.map MessageHeader.encode).flatten).length =
      (p.messages.map MessageHeader.serializedSize).sum :=
    messages_encode_length p.messages
  simp only [PacketEnvelope.encode, PacketEnvelope.decode, List.append_assoc,
    readU16_write _ _ hsz, ok_bind, readU16_write _ _ hseq, ok_bind]
  rw [if_neg (by simp only [PacketEnvelope.serializedSize]; omega)]
  rw [if_neg (by
    simp only [List.length_append, hflat, PacketEnvelope.serializedSize]
    omega)]
  have hcount : p.serializedSize - 4 =
      ((p.messages.map MessageHeader.encode).flatten).length := by
    simp only [PacketEnvelope.serializedSize, hflat]
    omega
  rw [hcount, List.take_left, List.drop_left,
    decodeMessages_encode p.messages _ hmsg
      (by rw [messages_encode_length]; exact messages_count_le_sum _),
    ok_bind]
  rfl

theorem packet_decode_ok {bs : List ℕ} {p : PacketEnvelope}
    {r : List ℕ} (h : PacketEnvelope.decode bs = .ok (p, r)) :
    p.packetLength = 4 + (p.messages.map MessageHeader.messageSize).sum := by
  simp only [PacketEnvelope.decode] at h
  cases h1 : readU16 bs with
  | error e => rw [h1, error_bind] at h; cases h
  | ok p1 =>
    obtain ⟨plen, bs1⟩ := p1
    simp only [h1, ok_bind] at h
    cases h2 : readU16 bs1 with
    | error e => rw [h2, error_bind] at h; cases h
    | ok p2 =>
      obtain ⟨pseq, bs2⟩ := p2
      simp only [h2, ok_bind] at h
      by_cases hp4 : plen < 4
      · rw [if_pos hp4] at h
        cases h
      rw [if_neg hp4] at h
      by_cases hbud : bs2.length < plen - 4
      · rw [if_pos hbud] at h
        cases h
      rw [if_neg hbud] at h
      cases hdm : decodeMessages (plen - 4) (bs2.take (plen - 4)) with
      | error e => rw [hdm, error_bind] at h; cases h
      | ok msgs =>
        simp only [hdm, ok_bind, Except.ok.injEq, Prod.mk.injEq] at h
        obtain ⟨hp, -⟩ := h
        subst hp
        have hsum := decodeMessages_ok hdm
        have htake : (bs2.take (plen - 4)).length = plen - 4 := by
          rw [List.length_take]
          omega
        show plen = 4 + (msgs.map MessageHeader.messageSize).sum
        rw [hsum, htake]
        omega

theorem body_decodedValue_of_exact {b : Body} (h : b.exactDurations) :
    b.decodedValue = b := by
  cases b with
  | hello hh =>
    simp only [Body.exactDurations] at h
    simp only [Body.decodedValue, ← h]
  | mid m => rfl
  | tc t => rfl
  | hna hh => rfl
  | other bs => rfl

theorem message_decodedValue_of_exact {m : MessageHeader}
    (h : m.exact) : m.decodedValue = m := by
  obtain ⟨hv, hs, hb⟩ := h
  simp only [MessageHeader.decodedValue, body_decodedValue_of_exact hb,
    ← hv, ← hs]

theorem map_decodedValue_of_exact (msgs : List MessageHeader)
    (h : ∀ m ∈ msgs, m.exact) :
    msgs.map MessageHeader.decodedValue = msgs := by
  induction msgs with
  | nil => rfl
  | cons m t ih =>
    simp only [List.map_cons,
      message_decodedValue_of_exact (h m (List.mem_cons_self m t)),
      ih (fun x hx => h x (List.mem_cons_of_mem m hx))]

theorem packet_decodedValue_of_exact {p : PacketEnvelope}
    (hlen : p.packetLength = p.serializedSize)
    (h : ∀ m ∈ p.messages, m.exact) : p.decodedValue = p := by
  simp only [PacketEnvelope.decodedValue,
    map_decodedValue_of_exact p.messages h, ← hlen]

/-- C1 (amended): for every constructed `PacketEnvelope` whose fields are
within their wire ranges, whose size and length fields satisfy the data
model's §3 invariants, and whose validity and hello-interval durations are
exact fixed points of the lossy compact time encoding, decoding the bytes
produced by encoding it yields the packet itself field-for-field with zero
leftover bytes; this covers in particular packets with at least one
message of every kind and the two-MID packet of the test suite. -/
theorem C1_round_trip (p : PacketEnvelope) (hwf : p.WF)
    (hex : ∀ m ∈ p.messages, m.exact) :
    PacketEnvelope.decode p.encode = .ok (p, []) := by
  have h := packet_decode_encode p [] hwf
  rw [List.append_nil] at h
  rw [h, packet_decodedValue_of_exact hwf.1 hex]

/-- C1 witness: the two-MID packet of `OlsrMidTestCase::DoRun` (TTL 255
and 254, distinct originators 11.22.33.44 and 12.22.33.44, two interface
addresses each, packet sequence number 123) round-trips exactly with no
leftover bytes. -/
theorem C1_round_trip_witness :
    PacketEnvelope.decode (PacketEnvelope.encode ⟨44, 123,
      [⟨1, 9, 185999660, 255, 0, 7, 20, .mid ⟨[16909060, 16909061]⟩⟩,
       ⟨1, 10, 202776876, 254, 0, 7, 20, .mid ⟨[33686276, 33686277]⟩⟩]⟩) =
      .ok (⟨44, 123,
      [⟨1, 9, 185999660, 255, 0, 7, 20, .mid ⟨[16909060, 16909061]⟩⟩,
       ⟨1, 10, 202776876, 254, 0, 7, 20, .mid ⟨[33686276, 33686277]⟩⟩]⟩,
        []) :=
  C1_round_trip _ (by decide) (by decide)

/-- C1 counterexample: the claim as stated (round trip for every
constructed packet with at least one message of every kind) fails, because
the validity duration is stored on the wire through the lossy compact time
encoding: this packet carries one message of each of the four kinds,
satisfies every §3 size invariant and wire range, but its MID message has
validity 9.1 s, which decodes back as 9 s. -/
theorem C1_counterexample :
    PacketEnvelope.decode (PacketEnvelope.encode ⟨116, 123,
      [⟨1, 91 / 10, 185999660, 255, 0, 7, 20,
          .mid ⟨[16909060, 16909061]⟩⟩,
       ⟨2, 7, 185999660, 255, 0, 8, 40,
          .hello ⟨7, 6, [⟨2, [16909060, 16909061]⟩,
            ⟨3, [33686276, 33686277]⟩]⟩⟩,
       ⟨3, 9, 185999660, 255, 0, 9, 24,
          .tc ⟨4660, [16909060, 16909061]⟩⟩,
       ⟨4, 9, 185999660, 255, 0, 10, 28,
          .hna ⟨[⟨16909060, 4294967040⟩, ⟨16909061, 4294901760⟩]⟩⟩]⟩) ≠
      .ok (⟨116, 123,
      [⟨1, 91 / 10, 185999660, 255, 0, 7, 20,
          .mid ⟨[16909060, 16909061]⟩⟩,
       ⟨2, 7, 185999660, 255, 0, 8, 40,
          .hello ⟨7, 6, [⟨2, [16909060, 16909061]⟩,
            ⟨3, [33686276, 33686277]⟩]⟩⟩,
       ⟨3, 9, 185999660, 255, 0, 9, 24,
          .tc ⟨4660, [16909060, 16909061]⟩⟩,
       ⟨4, 9, 185999660, 255, 0, 10, 28,
          .hna ⟨[⟨16909060, 4294967040⟩, ⟨16909061, 4294901760⟩]⟩⟩]⟩,
        []) := by
  decide

/-- C2: for every integer `t` with `1 ≤ t ≤ 30`, encoding `t` seconds to
the 8-bit mantissa/exponent byte and decoding it back yields a value
within 0.1 seconds of `t`. -/
theorem C2_emf_accuracy (t : ℕ) (h1 : 1 ≤ t) (h2 : t ≤ 30) :
    |EmfToSeconds (SecondsToEmf (t : ℚ)) - (t : ℚ)| ≤ 1 / 10 := by
  have key : ∀ n : ℕ, n < 31 → 1 ≤ n →
      |EmfToSeconds (SecondsToEmf (n : ℚ)) - (n : ℚ)| ≤ 1 / 10 := by decide
  exact key t (by omega) h1

/-- C2 witness: the accuracy bound at `t = 5`. -/
theorem C2_emf_accuracy_witness :
    |EmfToSeconds (SecondsToEmf ((5 : ℕ) : ℚ)) - ((5 : ℕ) : ℚ)| ≤ 1 / 10 :=
  C2_emf_accuracy 5 (by norm_num) (by norm_num)

/-- C3: encoding any well-formed Hello body and decoding it yields link
records in the same order with the same link codes and the same address
order within each record, and the same willingness; records with equal
link codes are never merged, because the decoded record list is exactly
the encoded one.  In particular this holds for the test's two records
with link codes 2 and 3 and two neighbor addresses each. -/
theorem C3_hello_grouping (h : Hello) (hwf : h.WF) :
    ∃ h' : Hello, Hello.decode h.encode = .ok h' ∧
      h'.linkMessages = h.linkMessages ∧
      h'.willingness = h.willingness :=
  ⟨_, hello_decode_encode h hwf, rfl, rfl⟩

/-- C3 witness: the Hello body of `OlsrHelloTestCase::DoRun` (link codes 2
and 3, two neighbor addresses each). -/
theorem C3_hello_grouping_witness :
    ∃ h' : Hello,
      Hello.decode (Hello.encode ⟨7, 6, [⟨2, [16909060, 16909061]⟩,
        ⟨3, [33686276, 33686277]⟩]⟩) = .ok h' ∧
      h'.linkMessages = [⟨2, [16909060, 16909061]⟩,
        ⟨3, [33686276, 33686277]⟩] ∧
      h'.willingness = 6 :=
  C3_hello_grouping ⟨7, 6, [⟨2, [16909060, 16909061]⟩,
    ⟨3, [33686276, 33686277]⟩]⟩ (by decide)

/-- C4: for every decoded message the size field equals 12 plus the
serialized size of its decoded body, and for every decoded packet the
length field equals 4 plus the sum of the size fields of its contained
messages. -/
theorem C4_size_consistency :
    (∀ (bs : List ℕ) (m : MessageHeader) (r : List ℕ),
      MessageHeader.decode bs = .ok (m, r) →
        m.messageSize = 12 + m.body.serializedSize) ∧
    (∀ (bs : List ℕ) (p : PacketEnvelope) (r : List ℕ),
      PacketEnvelope.decode bs = .ok (p, r) →
        p.packetLength = 4 + (p.messages.map MessageHeader.messageSize).sum)
    := by
  constructor
  · intro bs m r h
    exact (message_decode_ok h).1
  · intro bs p r h
    exact packet_decode_ok h

/-- C4 witness: both size invariants evaluated on a decoded TC message and
a decoded one-message packet. -/
theorem C4_size_consistency_witness :
    ((⟨3, (9 : ℚ), 16909060, 2, 0, 1, 24,
        .tc ⟨4660, [16909060, 16909061]⟩⟩ : MessageHeader).messageSize =
      12 + (Body.tc ⟨4660, [16909060, 16909061]⟩).serializedSize) ∧
    ((⟨28, 5,
        [⟨3, (9 : ℚ), 16909060, 2, 0, 1, 24,
          .tc ⟨4660, [16909060, 16909061]⟩⟩]⟩ :
        PacketEnvelope).packetLength =
      4 + (([⟨3, (9 : ℚ), 16909060, 2, 0, 1, 24,
          .tc ⟨4660, [16909060, 16909061]⟩⟩] :
        List MessageHeader).map MessageHeader.messageSize).sum) :=
  ⟨C4_size_consistency.1
    (MessageHeader.encode ⟨3, (9 : ℚ), 16909060, 2, 0, 1, 24,
      .tc ⟨4660, [16909060, 16909061]⟩⟩)
    ⟨3, (9 : ℚ), 16909060, 2, 0, 1, 24, .tc ⟨4660, [16909060, 16909061]⟩⟩
    [] (by decide),
   C4_size_consistency.2
    (PacketEnvelope.encode ⟨28, 5,
      [⟨3, (9 : ℚ), 16909060, 2, 0, 1, 24,
        .tc ⟨4660, [16909060, 16909061]⟩⟩]⟩)
    ⟨28, 5, [⟨3, (9 : ℚ), 16909060, 2, 0, 1, 24,
      .tc ⟨4660, [16909060, 16909061]⟩⟩]⟩
    [] (by decide)⟩

/-- C5: the TC body with `ansn = 0x1234` and neighbor addresses 1.2.3.4
and 1.2.3.5 encodes as the u16 ANSN, a reserved u16 written as zero, then
the two addresses; it decodes back with the same ANSN and the same two
addresses in order; and the reserved u16 is ignored on decode (any value
in range decodes to the same body). -/
theorem C5_tc_round_trip :
    (Tc.encode ⟨4660, [16909060, 16909061]⟩ =
      writeU16 4660 ++ writeU16 0 ++
        (writeU32 16909060 ++ writeU32 16909061)) ∧
    (Tc.decode (Tc.encode ⟨4660, [16909060, 16909061]⟩) =
      .ok ⟨4660, [16909060, 16909061]⟩) ∧
    (∀ resv : ℕ, resv < 65536 →
      Tc.decode (writeU16 4660 ++ writeU16 resv ++
        encodeAddrs [16909060, 16909061]) =
        .ok ⟨4660, [16909060, 16909061]⟩) := by
  refine ⟨by decide, by decide, ?_⟩
  intro resv hr
  exact tc_decode_reserved ⟨4660, [16909060, 16909061]⟩ resv hr (by decide)

/-- C5 witness: the reserved-word clause at the concrete value 77. -/
theorem C5_tc_round_trip_witness :
    Tc.decode (writeU16 4660 ++ writeU16 77 ++
      encodeAddrs [16909060, 16909061]) =
      .ok ⟨4660, [16909060, 16909061]⟩ :=
  C5_tc_round_trip.2.2 77 (by norm_num)

theorem readU16_cons (a b : ℕ) (r : List ℕ) :
    readU16 (a :: b :: r) = .ok (a * 256 + b, r) := rfl

theorem readU32_cons (a b c d : ℕ) (r : List ℕ) :
    readU32 (a :: b :: c :: d :: r) =
      .ok ((a * 256 + b) * 65536 + (c * 256 + d), r) := rfl

/-- C6: message decode fails with the malformed-length error when the
declared size field is below the 12-byte fixed header, fails with the
underrun error when the cursor runs out of bytes (either inside the fixed
header or before the declared body bytes are available), and every decode
outcome is a typed result: an error value or a complete message, never a
partial object. -/
theorem C6_decode_errors :
    (∀ (b0 b1 s2 s3 b4 b5 b6 b7 b8 b9 b10 b11 : ℕ) (tail : List ℕ),
      s2 * 256 + s3 < 12 →
      MessageHeader.decode (b0 :: b1 :: s2 :: s3 :: b4 :: b5 :: b6 :: b7 ::
        b8 :: b9 :: b10 :: b11 :: tail) = .error .malformedLength) ∧
    (∀ bs : List ℕ, bs.length < 12 →
      MessageHeader.decode bs = .error .bufferUnderrun) ∧
    (∀ (b0 b1 s2 s3 b4 b5 b6 b7 b8 b9 b10 b11 : ℕ) (tail : List ℕ),
      ¬ s2 * 256 + s3 < 12 → tail.length < s2 * 256 + s3 - 12 →
      MessageHeader.decode (b0 :: b1 :: s2 :: s3 :: b4 :: b5 :: b6 :: b7 ::
        b8 :: b9 :: b10 :: b11 :: tail) = .error .bufferUnderrun) ∧
    (∀ bs : List ℕ,
      (∃ e, MessageHeader.decode bs = .error e) ∨
        ∃ m r, MessageHeader.decode bs = .ok (m, r)) := by
  refine ⟨?_, ?_, ?_, ?_⟩
  · intro b0 b1 s2 s3 b4 b5 b6 b7 b8 b9 b10 b11 tail h
    simp only [MessageHeader.decode, readU8_cons, ok_bind, readU16_cons,
      readU32_cons]
    rw [if_pos h]
  · intro bs hlen
    rcases bs with _ | ⟨b0, _ | ⟨b1, _ | ⟨b2, _ | ⟨b3, _ | ⟨b4, _ | ⟨b5,
      _ | ⟨b6, _ | ⟨b7, _ | ⟨b8, _ | ⟨b9, _ | ⟨b10, tail⟩⟩⟩⟩⟩⟩⟩⟩⟩⟩⟩
    · rfl
    · rfl
    · rfl
    · rfl
    · rfl
    · rfl
    · rfl
    · rfl
    · rfl
    · rfl
    · rfl
    · cases tail with
      | nil => rfl
      | cons x xs =>
        exfalso
        simp only [List.length_cons] at hlen
        omega
  · intro b0 b1 s2 s3 b4 b5 b6 b7 b8 b9 b10 b11 tail h1 h2
    simp only [MessageHeader.decode, readU8_cons, ok_bind, readU16_cons,
      readU32_cons]
    rw [if_neg h1, if_pos h2]
  · intro bs
    cases h : MessageHeader.decode bs with
    | error e => exact Or.inl ⟨e, rfl⟩
    | ok p =>
      obtain ⟨m, r⟩ := p
      exact Or.inr ⟨m, r, rfl⟩

/-- C6 witness: a header declaring size 11 is malformed; a 3-byte buffer
underruns inside the fixed header; a header declaring size 20 with no body
bytes underruns; and the empty buffer produces a typed result. -/
theorem C6_decode_errors_witness :
    MessageHeader.decode [1, 0, 0, 11, 0, 0, 0, 0, 0, 0, 0, 0] =
      .error .malformedLength ∧
    MessageHeader.decode [1, 2, 3] = .error .bufferUnderrun ∧
    MessageHeader.decode [1, 0, 0, 20, 0, 0, 0, 0, 0, 0, 0, 0] =
      .error .bufferUnderrun ∧
    ((∃ e, MessageHeader.decode ([] : List ℕ) = .error e) ∨
      ∃ m r, MessageHeader.decode ([] : List ℕ) = .ok (m, r)) :=
  ⟨C6_decode_errors.1 1 0 0 11 0 0 0 0 0 0 0 0 [] (by norm_num),
   C6_decode_errors.2.1 [1, 2, 3] (by norm_num),
   C6_decode_errors.2.2.1 1 0 0 20 0 0 0 0 0 0 0 0 [] (by norm_num)
     (by norm_num),
   C6_decode_errors.2.2.2 []⟩

/-- C7: a message whose type tag is none of the four recognized kinds
decodes successfully into the opaque raw-bytes variant holding exactly the
`size - 12` body bytes untouched, with the cursor advanced past exactly
those bytes; and every successful message decode leaves as remainder
exactly the input with `messageSize` bytes dropped, regardless of the
variant decoder. -/
theorem C7_unknown_type :
    (∀ (t vb orig ttl hop seq : ℕ) (body rest : List ℕ),
      t < 256 → t ≠ MID_MESSAGE → t ≠ HELLO_MESSAGE → t ≠ TC_MESSAGE →
      t ≠ HNA_MESSAGE → vb < 256 → 12 + body.length < 65536 →
      orig < 2 ^ 32 → ttl < 256 → hop < 256 → seq < 65536 →
      MessageHeader.decode (writeU8 t ++ writeU8 vb ++
        writeU16 (12 + body.length) ++ writeU32 orig ++ writeU8 ttl ++
        writeU8 hop ++ writeU16 seq ++ body ++ rest) =
        .ok (⟨t, EmfToSeconds vb, orig, ttl, hop, seq, 12 + body.length,
          .other body⟩, rest)) ∧
    (∀ (bs : List ℕ) (m : MessageHeader) (r : List ℕ),
      MessageHeader.decode bs = .ok (m, r) → r = bs.drop m.messageSize) := by
  constructor
  · intro t vb orig ttl hop seq body rest h1 h2 h3 h4 h5 h6 h7 h8 h9 h10 h11
    simp only [MessageHeader.decode, List.append_assoc,
      readU8_write _ _ h1, ok_bind, readU8_write _ _ h6, ok_bind,
      readU16_write _ _ h7, ok_bind, readU32_write _ _ h8, ok_bind,
      readU8_write _ _ h9, ok_bind, readU8_write _ _ h10, ok_bind,
      readU16_write _ _ h11, ok_bind]
    rw [if_neg (by omega)]
    rw [if_neg (by simp only [List.length_append]; omega)]
    rw [Nat.add_sub_cancel_left, List.take_left, List.drop_left]
    simp only [Body.decode]
    rw [if_neg h2, if_neg h3, if_neg h4, if_neg h5, ok_bind]
  · intro bs m r h
    exact (message_decode_ok h).2.2

/-- C7 witness: tag 7 with two body bytes and one trailing byte decodes to
the opaque variant holding those two bytes with the cursor advanced
exactly past them, and the remainder equals the drop of the message size. -/
theorem C7_unknown_type_witness :
    (MessageHeader.decode (writeU8 7 ++ writeU8 0 ++
      writeU16 (12 + ([250, 251] : List ℕ).length) ++ writeU32 0 ++
      writeU8 1 ++ writeU8 2 ++ writeU16 3 ++ [250, 251] ++ [9]) =
      .ok (⟨7, EmfToSeconds 0, 0, 1, 2, 3, 12 + ([250, 251] : List ℕ).length,
        .other [250, 251]⟩, [9])) ∧
    ([9] : List ℕ) = (writeU8 7 ++ writeU8 0 ++
      writeU16 (12 + ([250, 251] : List ℕ).length) ++ writeU32 0 ++
      writeU8 1 ++ writeU8 2 ++ writeU16 3 ++ [250, 251] ++ [9]).drop
        (⟨7, EmfToSeconds 0, 0, 1, 2, 3,
          12 + ([250, 251] : List ℕ).length,
          .other [250, 251]⟩ : MessageHeader).messageSize :=
  ⟨C7_unknown_type.1 7 0 0 1 2 3 [250, 251] [9] (by norm_num) (by decide)
      (by decide) (by decide) (by decide) (by norm_num) (by norm_num)
      (by norm_num) (by norm_num) (by norm_num) (by norm_num),
   C7_unknown_type.2 _ _ _
    (C7_unknown_type.1 7 0 0 1 2 3 [250, 251] [9] (by norm_num) (by decide)
      (by decide) (by decide) (by decide) (by norm_num) (by norm_num)
      (by norm_num) (by norm_num) (by norm_num) (by norm_num))⟩

/-- C8: the compact-time functions are total with no failure mode: every
byte decodes to a non-negative (finite, rational) number of seconds, every
non-negative seconds value encodes to a byte (a value below 256), and when
the rounded mantissa exceeds the 4-bit range at every candidate exponent
the encoder saturates to the maximum representable byte 255 instead of
overflowing. -/
theorem C8_emf_total :
    (∀ b : ℕ, 0 ≤ EmfToSeconds b) ∧
    (∀ t : ℚ, 0 ≤ t → SecondsToEmf t < 256) ∧
    (∀ t : ℚ, (∀ e, e < 16 → 15 < emfMantissa t e) →
      SecondsToEmf t = 255) := by
  refine ⟨?_, ?_, ?_⟩
  · intro b
    unfold EmfToSeconds
    positivity
  · intro t _
    exact SecondsToEmf_lt t
  · intro t h
    unfold SecondsToEmf
    have hnone : (List.range 16).find?
        (fun b => decide (emfMantissa t b ≤ 15)) = none := by
      rw [List.find?_eq_none]
      intro b hb
      simp only [decide_eq_true_eq, not_le]
      exact h b (List.mem_range.mp hb)
    rw [hnone]

/-- C8 witness: byte 200 decodes to a non-negative duration, one hundred
thousand seconds encodes to a byte, and one million seconds saturates to
byte 255. -/
theorem C8_emf_total_witness :
    (0 : ℚ) ≤ EmfToSeconds 200 ∧ SecondsToEmf 100000 < 256 ∧
      SecondsToEmf 1000000 = 255 :=
  ⟨C8_emf_total.1 200, C8_emf_total.2.1 100000 (by norm_num),
   C8_emf_total.2.2 1000000 (by decide)⟩

/-- C9: selecting a body variant through an accessor (`GetMid`,
`GetHello`, `GetTc`, `GetHna`) sets the message's type tag as a side
effect, so a message built only through the accessor — `SetMessageType`
never called — encodes with the matching tag and decodes back to that same
variant with its type field equal to that tag. -/
theorem C9_accessor_tags :
    (∀ (msg : MessageHeader) (m : Mid), (msg.GetMid m).WF →
      ∃ d : MessageHeader,
        MessageHeader.decode (msg.GetMid m).encode = .ok (d, []) ∧
        d.messageType = MID_MESSAGE ∧ d.body = .mid m) ∧
    (∀ (msg : MessageHeader) (h : Hello), (msg.GetHello h).WF →
      ∃ (d : MessageHeader) (h' : Hello),
        MessageHeader.decode (msg.GetHello h).encode = .ok (d, []) ∧
        d.messageType = HELLO_MESSAGE ∧ d.body = .hello h' ∧
        h'.willingness = h.willingness ∧
        h'.linkMessages = h.linkMessages) ∧
    (∀ (msg : MessageHeader) (t : Tc), (msg.GetTc t).WF →
      ∃ d : MessageHeader,
        MessageHeader.decode (msg.GetTc t).encode = .ok (d, []) ∧
        d.messageType = TC_MESSAGE ∧ d.body = .tc t) ∧
    (∀ (msg : MessageHeader) (h : Hna), (msg.GetHna h).WF →
      ∃ d : MessageHeader,
        MessageHeader.decode (msg.GetHna h).encode = .ok (d, []) ∧
        d.messageType = HNA_MESSAGE ∧ d.body = .hna h) := by
  refine ⟨?_, ?_, ?_, ?_⟩
  · intro msg m hwf
    have h := message_decode_encode (msg.GetMid m) [] hwf
    rw [List.append_nil] at h
    exact ⟨_, h, rfl, rfl⟩
  · intro msg hh hwf
    have h := message_decode_encode (msg.GetHello hh) [] hwf
    rw [List.append_nil] at h
    exact ⟨_, _, h, rfl, rfl, rfl, rfl⟩
  · intro msg t hwf
    have h := message_decode_encode (msg.GetTc t) [] hwf
    rw [List.append_nil] at h
    exact ⟨_, h, rfl, rfl⟩
  · intro msg hh hwf
    have h := message_decode_encode (msg.GetHna hh) [] hwf
    rw [List.append_nil] at h
    exact ⟨_, h, rfl, rfl⟩

/-- C9 witness: all four accessors applied to a default-constructed
message with the test suite's bodies. -/
theorem C9_accessor_tags_witness :
    (∃ d : MessageHeader,
      MessageHeader.decode (MessageHeader.mkDefault.GetMid
        ⟨[16909060, 16909061]⟩).encode = .ok (d, []) ∧
      d.messageType = MID_MESSAGE ∧
      d.body = .mid ⟨[16909060, 16909061]⟩) ∧
    (∃ (d : MessageHeader) (h' : Hello),
      MessageHeader.decode (MessageHeader.mkDefault.GetHello
        ⟨7, 6, [⟨2, [16909060, 16909061]⟩]⟩).encode = .ok (d, []) ∧
      d.messageType = HELLO_MESSAGE ∧ d.body = .hello h' ∧
      h'.willingness = 6 ∧
      h'.linkMessages = [⟨2, [16909060, 16909061]⟩]) ∧
    (∃ d : MessageHeader,
      MessageHeader.decode (MessageHeader.mkDefault.GetTc
        ⟨4660, [16909060, 16909061]⟩).encode = .ok (d, []) ∧
      d.messageType = TC_MESSAGE ∧
      d.body = .tc ⟨4660, [16909060, 16909061]⟩) ∧
    (∃ d : MessageHeader,
      MessageHeader.decode (MessageHeader.mkDefault.GetHna
        ⟨[⟨16909060, 4294967040⟩]⟩).encode = .ok (d, []) ∧
      d.messageType = HNA_MESSAGE ∧
      d.body = .hna ⟨[⟨16909060, 4294967040⟩]⟩) :=
  ⟨C9_accessor_tags.1 MessageHeader.mkDefault ⟨[16909060, 16909061]⟩
      (by decide),
   C9_accessor_tags.2.1 MessageHeader.mkDefault
      ⟨7, 6, [⟨2, [16909060, 16909061]⟩]⟩ (by decide),
   C9_accessor_tags.2.2.1 MessageHeader.mkDefault
      ⟨4660, [16909060, 16909061]⟩ (by decide),
   C9_accessor_tags.2.2.2 MessageHeader.mkDefault
      ⟨[⟨16909060, 4294967040⟩]⟩ (by decide)⟩

end Olsr

/-- C10: the RV battery model's level is never negative: it starts at 1
(fully charged), a call on a live battery yields a level clamped at 0, and
once the level is at or below 0 every subsequent `UpdateEnergySource` call
returns the state unchanged — battery level, lifetime, load history,
timestamps and the pending sample event included. -/
theorem C10_battery_level :
    (∀ now : ℚ, (Energy.RvState.init now).batteryLevel = 1) ∧
    (∀ (e : ℚ → ℚ) (now : ℚ) (isFin : Bool) (cur : ℚ)
        (s : Energy.RvState), s.batteryLevel ≤ 0 →
      Energy.UpdateEnergySource e now isFin cur s = s) ∧
    (∀ (e : ℚ → ℚ) (now : ℚ) (isFin : Bool) (cur : ℚ)
        (s : Energy.RvState), 0 ≤ s.batteryLevel →
      0 ≤ (Energy.UpdateEnergySource e now isFin cur s).batteryLevel) := by
  refine ⟨fun _ => rfl, ?_, ?_⟩
  · intro e now isFin cur s h
    unfold Energy.UpdateEnergySource
    rw [if_pos h]
  · intro e now isFin cur s h0
    unfold Energy.UpdateEnergySource
    by_cases hdead : s.batteryLevel ≤ 0
    · rw [if_pos hdead]
      exact h0
    rw [if_neg hdead]
    by_cases hfin : isFin = true
    · rw [if_pos hfin]
      exact h0
    rw [if_neg hfin]
    dsimp only
    split_ifs <;> dsimp only <;> linarith

/-- C10 witness: the freshly constructed battery is fully charged, a dead
battery state is left untouched by an update, and an update on the fresh
battery yields a non-negative level. -/
theorem C10_battery_level_witness :
    (Energy.RvState.init 0).batteryLevel = 1 ∧
    Energy.UpdateEnergySource (fun _ => 1) 1 false 1
      { Energy.RvState.init 0 with batteryLevel := 0 } =
      { Energy.RvState.init 0 with batteryLevel := 0 } ∧
    0 ≤ (Energy.UpdateEnergySource (fun _ => 1) 1 false 1
      (Energy.RvState.init 0)).batteryLevel :=
  ⟨C10_battery_level.1 0,
   C10_battery_level.2.1 (fun _ => 1) 1 false 1 _ (by norm_num),
   C10_battery_level.2.2 (fun _ => 1) 1 false 1 _ (by decide)⟩
